import Mathlib

/-! Shallow embedding of the grab-ya-bagz event-scanning and aggregation
pipeline (src/app/api/leaderboard/route.ts, src/scripts/export-buys-and-claims.cjs
and the unnamed export-script variants), with proofs of the specification's
testable properties. JS strings are modelled as lists of characters, JS `Map`
as an insertion-ordered association list, `ethers.BigNumber` sums as `Nat`
(arbitrary precision, non-negative). -/

namespace GrabYaBagz

/-- Account addresses are canonical hex strings; JS strings are modelled as
lists of characters. -/
abbrev Addr := List Char

/-- Insertion-ordered association list, modelling a JS `Map` keyed by address. -/
abbrev AList (β : Type) := List (Addr × β)

/-- `Map.get`. -/
def alGet (m : AList β) (k : Addr) : Option β :=
  match m with
  | [] => none
  | (k', v) :: rest => if k = k' then some v else alGet rest k

/-- `Map.set`: replaces the value in place when the key is present (a JS `Map`
keeps the original insertion position), appends otherwise. -/
def alSet (m : AList β) (k : Addr) (v : β) : AList β :=
  match m with
  | [] => [(k, v)]
  | (k', v') :: rest =>
      if k = k' then (k', v) :: rest else (k', v') :: alSet rest k v

/-- A decoded event of interest: `Buy(address indexed user, uint64, uint32)`
counts one free buy; `Claim(address indexed user, uint256 buysClaimed,
uint256 tokensPaid)` carries its two numeric payload fields. -/
inductive Event where
  | buy (user : Addr)
  | claim (user : Addr) (buysClaimed : Nat) (tokensPaid : Nat)
deriving DecidableEq, Repr

/-- The four per-wallet maps built by `main` in export-buys-and-claims.cjs. -/
structure ScanState where
  buyCounts : AList Nat
  claimTxCounts : AList Nat
  buysClaimedCounts : AList Nat
  tokensClaimed : AList Nat
deriving DecidableEq, Repr

def initScan : ScanState := ⟨[], [], [], []⟩

/-- Effect of one decoded event on the four maps: the per-log bodies of the
Buy and Claim scan loops in export-buys-and-claims.cjs
(`buyCounts.set(addr, prev + 1)`, `claimTxCounts.set(addr, ... + 1)`,
`buysClaimedCounts.set(addr, ... + buysClaimed)`,
`tokensClaimed.set(addr, prevTokens.add(tokensPaid))`). -/
def applyEvent (st : ScanState) (e : Event) : ScanState :=
  match e with
  | .buy user =>
      { st with
        buyCounts := alSet st.buyCounts user ((alGet st.buyCounts user).getD 0 + 1) }
  | .claim user buysClaimed tokensPaid =>
      { st with
        claimTxCounts :=
          alSet st.claimTxCounts user ((alGet st.claimTxCounts user).getD 0 + 1),
        buysClaimedCounts :=
          alSet st.buysClaimedCounts user
            ((alGet st.buysClaimedCounts user).getD 0 + buysClaimed),
        tokensClaimed :=
          alSet st.tokensClaimed user ((alGet st.tokensClaimed user).getD 0 + tokensPaid) }

/-- The aggregation fold (§4.3 WalletAggregator): process a sequence of decoded
events starting from empty maps. -/
def eventFold (l : List Event) : ScanState := l.foldl applyEvent initScan

/-- Per-account statistics (§3 AccountStat). -/
structure AccountStat where
  buyCount : Nat
  claimTxCount : Nat
  unitsClaimedTotal : Nat
  amountClaimedTotal : Nat
deriving DecidableEq, Repr

/-- Whether wallet `a` has an entry in any of the four maps, i.e. membership in
the `allWallets` key union of the export script. -/
def referencedIn (st : ScanState) (a : Addr) : Bool :=
  (alGet st.buyCounts a).isSome || (alGet st.claimTxCounts a).isSome ||
  (alGet st.buysClaimedCounts a).isSome || (alGet st.tokensClaimed a).isSome

/-- The statistics row the export script produces for wallet `a`
(`buyCounts.get(wallet) || 0`, etc.), or `none` when `a` is not in the key
union at all. -/
def accountStatOf (st : ScanState) (a : Addr) : Option AccountStat :=
  if referencedIn st a then
    some ⟨(alGet st.buyCounts a).getD 0, (alGet st.claimTxCounts a).getD 0,
          (alGet st.buysClaimedCounts a).getD 0, (alGet st.tokensClaimed a).getD 0⟩
  else none

/-- The address-to-statistics mapping obtained by folding an event sequence. -/
def accountStat (l : List Event) (a : Addr) : Option AccountStat :=
  accountStatOf (eventFold l) a

/-- Does this event record a buy by `a`? -/
def isBuyBy (a : Addr) : Event → Bool
  | .buy u => u = a
  | .claim _ _ _ => false

/-- Does this event record a claim transaction by `a`? -/
def isClaimBy (a : Addr) : Event → Bool
  | .buy _ => false
  | .claim u _ _ => u = a

/-- Units (buysClaimed) this event contributes to `a`'s total. -/
def unitsFor (a : Addr) : Event → Nat
  | .buy _ => 0
  | .claim u n _ => if u = a then n else 0

/-- Amount (tokensPaid) this event contributes to `a`'s total. -/
def amountFor (a : Addr) : Event → Nat
  | .buy _ => 0
  | .claim u _ m => if u = a then m else 0

/-- Does this event reference account `a` at all? -/
def refs (a : Addr) (e : Event) : Bool := isBuyBy a e || isClaimBy a e

theorem alGet_alSet (m : AList β) (k k' : Addr) (v : β) :
    alGet (alSet m k v) k' = if k' = k then some v else alGet m k' := by
  induction m with
  | nil =>
      simp only [alSet, alGet]
  | cons hd tl ih =>
      obtain ⟨k₀, v₀⟩ := hd
      by_cases h1 : k = k₀
      · subst h1
        by_cases h2 : k' = k <;> simp [alSet, alGet, h2]
      · by_cases h2 : k' = k₀
        · subst h2
          simp [alSet, alGet, h1, Ne.symm h1]
        · simp [alSet, alGet, h1, h2, ih]

theorem foldl_buyCounts_getD (l : List Event) (st : ScanState) (a : Addr) :
    (alGet (l.foldl applyEvent st).buyCounts a).getD 0
      = (alGet st.buyCounts a).getD 0 + l.countP (isBuyBy a) := by
  induction l generalizing st with
  | nil => simp
  | cons e t ih =>
      rw [List.foldl_cons, ih, List.countP_cons]
      cases e with
      | buy u =>
          by_cases h : a = u
          · subst h
            simp [applyEvent, alGet_alSet, isBuyBy]
            omega
          · simp [applyEvent, alGet_alSet, isBuyBy, h, Ne.symm h]
      | claim u n m =>
          simp [applyEvent, isBuyBy]

theorem foldl_buyCounts_isSome (l : List Event) (st : ScanState) (a : Addr) :
    (alGet (l.foldl applyEvent st).buyCounts a).isSome
      = ((alGet st.buyCounts a).isSome || l.any (isBuyBy a)) := by
  induction l generalizing st with
  | nil => simp
  | cons e t ih =>
      rw [List.foldl_cons, ih, List.any_cons]
      cases e with
      | buy u =>
          by_cases h : a = u
          · subst h
            simp [applyEvent, alGet_alSet, isBuyBy]
          · simp [applyEvent, alGet_alSet, isBuyBy, h, Ne.symm h]
      | claim u n m =>
          simp [applyEvent, isBuyBy]

theorem foldl_claimTxCounts_getD (l : List Event) (st : ScanState) (a : Addr) :
    (alGet (l.foldl applyEvent st).claimTxCounts a).getD 0
      = (alGet st.claimTxCounts a).getD 0 + l.countP (isClaimBy a) := by
  induction l generalizing st with
  | nil => simp
  | cons e t ih =>
      rw [List.foldl_cons, ih, List.countP_cons]
      cases e with
      | buy u =>
          simp [applyEvent, isClaimBy]
      | claim u n m =>
          by_cases h : a = u
          · subst h
            simp [applyEvent, alGet_alSet, isClaimBy]
            omega
          · simp [applyEvent, alGet_alSet, isClaimBy, h, Ne.symm h]

theorem foldl_claimTxCounts_isSome (l : List Event) (st : ScanState) (a : Addr) :
    (alGet (l.foldl applyEvent st).claimTxCounts a).isSome
      = ((alGet st.claimTxCounts a).isSome || l.any (isClaimBy a)) := by
  induction l generalizing st with
  | nil => simp
  | cons e t ih =>
      rw [List.foldl_cons, ih, List.any_cons]
      cases e with
      | buy u =>
          simp [applyEvent, isClaimBy]
      | claim u n m =>
          by_cases h : a = u
          · subst h
            simp [applyEvent, alGet_alSet, isClaimBy]
          · simp [applyEvent, alGet_alSet, isClaimBy, h, Ne.symm h]

theorem foldl_buysClaimedCounts_getD (l : List Event) (st : ScanState) (a : Addr) :
    (alGet (l.foldl applyEvent st).buysClaimedCounts a).getD 0
      = (alGet st.buysClaimedCounts a).getD 0 + (l.map (unitsFor a)).sum := by
  induction l generalizing st with
  | nil => simp
  | cons e t ih =>
      rw [List.foldl_cons, ih, List.map_cons, List.sum_cons]
      cases e with
      | buy u =>
          simp [applyEvent, unitsFor]
      | claim u n m =>
          by_cases h : a = u
          · subst h
            simp [applyEvent, alGet_alSet, unitsFor]
            omega
          · simp [applyEvent, alGet_alSet, unitsFor, h, Ne.symm h]

theorem foldl_buysClaimedCounts_isSome (l : List Event) (st : ScanState) (a : Addr) :
    (alGet (l.foldl applyEvent st).buysClaimedCounts a).isSome
      = ((alGet st.buysClaimedCounts a).isSome || l.any (isClaimBy a)) := by
  induction l generalizing st with
  | nil => simp
  | cons e t ih =>
      rw [List.foldl_cons, ih, List.any_cons]
      cases e with
      | buy u =>
          simp [applyEvent, isClaimBy]
      | claim u n m =>
          by_cases h : a = u
          · subst h
            simp [applyEvent, alGet_alSet, isClaimBy]
          · simp [applyEvent, alGet_alSet, isClaimBy, h, Ne.symm h]

theorem foldl_tokensClaimed_getD (l : List Event) (st : ScanState) (a : Addr) :
    (alGet (l.foldl applyEvent st).tokensClaimed a).getD 0
      = (alGet st.tokensClaimed a).getD 0 + (l.map (amountFor a)).sum := by
  induction l generalizing st with
  | nil => simp
  | cons e t ih =>
      rw [List.foldl_cons, ih, List.map_cons, List.sum_cons]
      cases e with
      | buy u =>
          simp [applyEvent, amountFor]
      | claim u n m =>
          by_cases h : a = u
          · subst h
            simp [applyEvent, alGet_alSet, amountFor]
            omega
          · simp [applyEvent, alGet_alSet, amountFor, h, Ne.symm h]

theorem foldl_tokensClaimed_isSome (l : List Event) (st : ScanState) (a : Addr) :
    (alGet (l.foldl applyEvent st).tokensClaimed a).isSome
      = ((alGet st.tokensClaimed a).isSome || l.any (isClaimBy a)) := by
  induction l generalizing st with
  | nil => simp
  | cons e t ih =>
      rw [List.foldl_cons, ih, List.any_cons]
      cases e with
      | buy u =>
          simp [applyEvent, isClaimBy]
      | claim u n m =>
          by_cases h : a = u
          · subst h
            simp [applyEvent, alGet_alSet, isClaimBy]
          · simp [applyEvent, alGet_alSet, isClaimBy, h, Ne.symm h]

theorem any_refs_split (l : List Event) (a : Addr) :
    l.any (refs a) = (l.any (isBuyBy a) || l.any (isClaimBy a)) := by
  induction l with
  | nil => simp
  | cons e t ih =>
      simp only [List.any_cons, refs, ih]
      cases h1 : isBuyBy a e <;> cases h2 : isClaimBy a e <;> simp [h1, h2]

/-- Characterization of the aggregation fold: the mapping assigns to `a` the
exact buy-event count, claim-event count, claimed-units sum and paid-amount
sum over the sequence, and assigns nothing when no event references `a`. -/
theorem accountStat_eq (l : List Event) (a : Addr) :
    accountStat l a =
      if l.any (refs a) then
        some ⟨l.countP (isBuyBy a), l.countP (isClaimBy a),
              (l.map (unitsFor a)).sum, (l.map (amountFor a)).sum⟩
      else none := by
  unfold accountStat accountStatOf referencedIn eventFold
  simp only [foldl_buyCounts_getD, foldl_claimTxCounts_getD,
    foldl_buysClaimedCounts_getD, foldl_tokensClaimed_getD,
    foldl_buyCounts_isSome, foldl_claimTxCounts_isSome,
    foldl_buysClaimedCounts_isSome, foldl_tokensClaimed_isSome]
  simp only [initScan, alGet, Option.getD_none, Option.isSome_none, Nat.zero_add,
    Bool.false_or]
  rw [any_refs_split]
  cases hB : l.any (isBuyBy a) <;> cases hC : l.any (isClaimBy a) <;> simp

theorem perm_any {α : Type} {l₁ l₂ : List α} (h : l₁.Perm l₂) (p : α → Bool) :
    l₁.any p = l₂.any p := by
  rw [Bool.eq_iff_iff]
  simp only [List.any_eq_true]
  constructor
  · rintro ⟨x, hx, hp⟩
    exact ⟨x, h.mem_iff.mp hx, hp⟩
  · rintro ⟨x, hx, hp⟩
    exact ⟨x, h.mem_iff.mpr hx, hp⟩

/-- C5: folding a decoded event sequence gives each referenced account a
`buyCount` equal to the number of buy events referencing it and a
`claimTxCount` equal to the number of claim events referencing it, with
claimed-units and paid-amount running totals summing the claim events'
payloads; appending one claim event referencing `a` increments its
`claimTxCount` by exactly one while adding that event's units and amount to
the totals; an account referenced by no event is absent from the mapping,
never present with zero counts. -/
theorem C5_fold_functional_correctness (l : List Event) (a : Addr) (u m : Nat) :
    (accountStat l a =
      if l.any (refs a) then
        some ⟨l.countP (isBuyBy a), l.countP (isClaimBy a),
              (l.map (unitsFor a)).sum, (l.map (amountFor a)).sum⟩
      else none) ∧
    accountStat (l ++ [Event.claim a u m]) a
      = some ⟨l.countP (isBuyBy a), l.countP (isClaimBy a) + 1,
              (l.map (unitsFor a)).sum + u, (l.map (amountFor a)).sum + m⟩ ∧
    accountStat (l ++ [Event.buy a]) a
      = some ⟨l.countP (isBuyBy a) + 1, l.countP (isClaimBy a),
              (l.map (unitsFor a)).sum, (l.map (amountFor a)).sum⟩ := by
  refine ⟨accountStat_eq l a, ?_, ?_⟩
  · rw [accountStat_eq]
    simp [refs, isBuyBy, isClaimBy, unitsFor, amountFor]
  · rw [accountStat_eq]
    simp [refs, isBuyBy, isClaimBy, unitsFor, amountFor]

/-- C2: folding any permutation of a decoded event sequence yields the same
address-to-statistics mapping: identical per-account buy counts,
claim-transaction counts, claimed-unit totals and claimed-amount totals. -/
theorem C2_fold_permutation_invariant (l₁ l₂ : List Event) (h : l₁.Perm l₂)
    (a : Addr) : accountStat l₁ a = accountStat l₂ a := by
  rw [accountStat_eq, accountStat_eq, h.countP_eq, h.countP_eq,
    (h.map (unitsFor a)).sum_eq, (h.map (amountFor a)).sum_eq, perm_any h]

/-- Witness for C2 at a concrete permutation of a two-event sequence. -/
theorem C2_fold_permutation_invariant_witness :
    accountStat [Event.claim ['b'] 2 5, Event.buy ['a']] ['a']
      = accountStat [Event.buy ['a'], Event.claim ['b'] 2 5] ['a'] :=
  C2_fold_permutation_invariant _ _ (by decide) ['a']

/-- A raw log record as returned by the provider: `topics` and `data` are JS
hex strings (lists of characters). -/
structure RawLog where
  topics : List (List Char)
  data : List Char
deriving DecidableEq, Repr

/-- Value of one hexadecimal digit character, `none` for a non-hex character. -/
def hexDigitVal (c : Char) : Option Nat :=
  if '0' ≤ c ∧ c ≤ '9' then some (c.toNat - '0'.toNat)
  else if 'a' ≤ c ∧ c ≤ 'f' then some (c.toNat - 'a'.toNat + 10)
  else if 'A' ≤ c ∧ c ≤ 'F' then some (c.toNat - 'A'.toNat + 10)
  else none

def isHexDigitChar (c : Char) : Bool := (hexDigitVal c).isSome

/-- Model of `ethers.utils.getAddress`: accepts a `0x`-prefixed 40-hex-digit
string and returns the canonical (case-normalized) form, `none` where ethers
throws. ethers returns the EIP-55 checksummed string, which is a function
of — and injective in — the lowercase hex digits alone; we take the lowercase
form itself as the canonical representative, which has identical equality
semantics. (Checksum validation of mixed-case inputs is not modelled; RPC
topic data is plain hex.) -/
def getAddress (s : List Char) : Option Addr :=
  match s with
  | '0' :: 'x' :: digits =>
      if digits.length = 40 && digits.all isHexDigitChar then
        some ('0' :: 'x' :: digits.map Char.toLower)
      else none
  | _ => none

/-- Buy-log decoding, as in `fetchLeaderboardFromChain` (route.ts) and the
Buy scan loop (export-buys-and-claims.cjs): require a second topic of string
length 66, strip the leading 26 characters (`0x` plus the 12-byte zero
padding) and canonicalize the remaining 40 hex characters; `none` wherever
the source `continue`s or catches. -/
def decodeBuyLog (log : RawLog) : Option Addr :=
  match log.topics.get? 1 with
  | none => none
  | some t => if t.length = 66 then getAddress ('0' :: 'x' :: t.drop 26) else none

/-- Parse a hex-digit string into a number with accumulator
(`ethers.BigNumber.from("0x…")`); `none` when some character is not a hex
digit, where `BigNumber.from` throws. -/
def hexToNat : List Char → Nat → Option Nat
  | [], acc => some acc
  | c :: cs, acc =>
      match hexDigitVal c with
      | some d => hexToNat cs (acc * 16 + d)
      | none => none

/-- `log.data.replace(/^0x/, "")`. -/
def stripHexPrefix (data : List Char) : List Char :=
  if data.take 2 = ['0', 'x'] then data.drop 2 else data

/-- Claim-log decoding per the Claim scan loop of export-buys-and-claims.cjs:
topic checks as for Buy, an optional `0x` prefix stripped from `data`, exactly
128 hex characters (two uint256 words) required, both words parsed;
`buysClaimed.toNumber()` throws — so the record is skipped — at 2^53 and
above. -/
def decodeClaimLog (log : RawLog) : Option (Addr × Nat × Nat) :=
  match log.topics.get? 1 with
  | none => none
  | some t =>
      if t.length = 66 then
        match getAddress ('0' :: 'x' :: t.drop 26) with
        | none => none
        | some addr =>
            if (stripHexPrefix log.data).length = 128 then
              match hexToNat ((stripHexPrefix log.data).take 64) 0,
                    hexToNat ((stripHexPrefix log.data).drop 64) 0 with
              | some buysClaimed, some tokensPaid =>
                  if buysClaimed < 2 ^ 53 then some (addr, buysClaimed, tokensPaid)
                  else none
              | some _, none => none
              | none, _ => none
            else none
      else none

/-- Per-log body of the Buy scan loop (export-buys-and-claims.cjs), updating
`buyCounts` in place; malformed records fall through unchanged. -/
def scanBuyLog (st : ScanState) (log : RawLog) : ScanState :=
  match log.topics.get? 1 with
  | none => st
  | some t =>
      if t.length = 66 then
        match getAddress ('0' :: 'x' :: t.drop 26) with
        | none => st
        | some addr =>
            { st with
              buyCounts := alSet st.buyCounts addr ((alGet st.buyCounts addr).getD 0 + 1) }
      else st

def scanBuys (logs : List RawLog) (st : ScanState) : ScanState :=
  logs.foldl scanBuyLog st

/-- Per-log body of the Claim scan loop (export-buys-and-claims.cjs), updating
the three claim maps in place; malformed records fall through unchanged. -/
def scanClaimLog (st : ScanState) (log : RawLog) : ScanState :=
  match log.topics.get? 1 with
  | none => st
  | some t =>
      if t.length = 66 then
        match getAddress ('0' :: 'x' :: t.drop 26) with
        | none => st
        | some addr =>
            if (stripHexPrefix log.data).length = 128 then
              match hexToNat ((stripHexPrefix log.data).take 64) 0,
                    hexToNat ((stripHexPrefix log.data).drop 64) 0 with
              | some buysClaimed, some tokensPaid =>
                  if buysClaimed < 2 ^ 53 then
                    { st with
                      claimTxCounts :=
                        alSet st.claimTxCounts addr ((alGet st.claimTxCounts addr).getD 0 + 1),
                      buysClaimedCounts :=
                        alSet st.buysClaimedCounts addr
                          ((alGet st.buysClaimedCounts addr).getD 0 + buysClaimed),
                      tokensClaimed :=
                        alSet st.tokensClaimed addr
                          ((alGet st.tokensClaimed addr).getD 0 + tokensPaid) }
                  else st
              | some _, none => st
              | none, _ => st
            else st
      else st

def scanClaims (logs : List RawLog) (st : ScanState) : ScanState :=
  logs.foldl scanClaimLog st

/-- The whole scan of `main` in export-buys-and-claims.cjs: the Buy loop over
the Buy logs followed by the Claim loop over the Claim logs. -/
def mainScan (buyLogs claimLogs : List RawLog) : ScanState :=
  scanClaims claimLogs (scanBuys buyLogs initScan)

/-- The decoded event of a Buy log, when well-formed. -/
def decodeBuyEvent (log : RawLog) : Option Event := (decodeBuyLog log).map .buy

/-- The decoded event of a Claim log, when well-formed. -/
def decodeClaimEvent (log : RawLog) : Option Event :=
  (decodeClaimLog log).map fun x => .claim x.1 x.2.1 x.2.2

theorem scanBuyLog_eq_decode (st : ScanState) (log : RawLog) :
    scanBuyLog st log =
      match decodeBuyEvent log with
      | some e => applyEvent st e
      | none => st := by
  unfold scanBuyLog decodeBuyEvent decodeBuyLog
  cases log.topics.get? 1 with
  | none => rfl
  | some t =>
      by_cases hlen : t.length = 66
      · simp only [hlen, if_true]
        cases getAddress ('0' :: 'x' :: t.drop 26) <;> simp [applyEvent]
      · simp [hlen]

theorem scanClaimLog_eq_decode (st : ScanState) (log : RawLog) :
    scanClaimLog st log =
      match decodeClaimEvent log with
      | some e => applyEvent st e
      | none => st := by
  unfold scanClaimLog decodeClaimEvent decodeClaimLog
  cases log.topics.get? 1 with
  | none => rfl
  | some t =>
      by_cases hlen : t.length = 66
      · simp only [hlen, if_true]
        cases getAddress ('0' :: 'x' :: t.drop 26) with
        | none => rfl
        | some addr =>
            by_cases hdata : (stripHexPrefix log.data).length = 128
            · simp only [hdata, if_true]
              cases hexToNat ((stripHexPrefix log.data).take 64) 0 with
              | none => rfl
              | some buysClaimed =>
                  cases hexToNat ((stripHexPrefix log.data).drop 64) 0 with
                  | none => rfl
                  | some tokensPaid =>
                      dsimp only
                      split <;> rename_i hn <;> simp [applyEvent, hn]
            · simp [hdata]
      · simp [hlen]

theorem scanBuys_eq_fold (logs : List RawLog) (st : ScanState) :
    scanBuys logs st = (logs.filterMap decodeBuyEvent).foldl applyEvent st := by
  induction logs generalizing st with
  | nil => rfl
  | cons log rest ih =>
      rw [scanBuys, List.foldl_cons, List.filterMap_cons]
      cases h : decodeBuyEvent log with
      | none =>
          have := scanBuyLog_eq_decode st log
          rw [h] at this
          rw [← scanBuys, ih, this]
      | some e =>
          have := scanBuyLog_eq_decode st log
          rw [h] at this
          rw [← scanBuys, ih, this, List.foldl_cons]

theorem scanClaims_eq_fold (logs : List RawLog) (st : ScanState) :
    scanClaims logs st = (logs.filterMap decodeClaimEvent).foldl applyEvent st := by
  induction logs generalizing st with
  | nil => rfl
  | cons log rest ih =>
      rw [scanClaims, List.foldl_cons, List.filterMap_cons]
      cases h : decodeClaimEvent log with
      | none =>
          have := scanClaimLog_eq_decode st log
          rw [h] at this
          rw [← scanClaims, ih, this]
      | some e =>
          have := scanClaimLog_eq_decode st log
          rw [h] at this
          rw [← scanClaims, ih, this, List.foldl_cons]

theorem mainScan_eq_eventFold (buyLogs claimLogs : List RawLog) :
    mainScan buyLogs claimLogs
      = eventFold (buyLogs.filterMap decodeBuyEvent
          ++ claimLogs.filterMap decodeClaimEvent) := by
  rw [mainScan, scanBuys_eq_fold, scanClaims_eq_fold, eventFold, List.foldl_append]

/-- C9: a log record whose topic count or payload length does not match the
schema of its apparent event kind decodes to no event and is silently
skipped: the export script's scan equals the event-level aggregation of
exactly the well-formed records, and inserting a malformed record anywhere
leaves the result unchanged — it never aborts the scan. -/
theorem C9_malformed_records_skipped :
    (∀ buyLogs claimLogs, mainScan buyLogs claimLogs
        = eventFold (buyLogs.filterMap decodeBuyEvent
            ++ claimLogs.filterMap decodeClaimEvent)) ∧
    (∀ claimLogs pre post m, decodeBuyEvent m = none →
        mainScan (pre ++ m :: post) claimLogs = mainScan (pre ++ post) claimLogs) ∧
    (∀ buyLogs pre post m, decodeClaimEvent m = none →
        mainScan buyLogs (pre ++ m :: post) = mainScan buyLogs (pre ++ post)) ∧
    (∀ m : RawLog, m.topics.length < 2 →
        decodeBuyEvent m = none ∧ decodeClaimEvent m = none) ∧
    (∀ m : RawLog, ∀ t, m.topics.get? 1 = some t → t.length ≠ 66 →
        decodeBuyEvent m = none ∧ decodeClaimEvent m = none) ∧
    (∀ m : RawLog, (stripHexPrefix m.data).length ≠ 128 →
        decodeClaimEvent m = none) := by
  refine ⟨mainScan_eq_eventFold, ?_, ?_, ?_, ?_, ?_⟩
  · intro claimLogs pre post m hm
    rw [mainScan_eq_eventFold, mainScan_eq_eventFold, List.filterMap_append,
      List.filterMap_append, List.filterMap_cons, hm]
  · intro buyLogs pre post m hm
    rw [mainScan_eq_eventFold, mainScan_eq_eventFold, List.filterMap_append,
      List.filterMap_append, List.filterMap_cons, hm]
  · intro m hm
    have hget : m.topics[1]? = none := by
      rw [List.getElem?_eq_none_iff]
      omega
    exact ⟨by simp [decodeBuyEvent, decodeBuyLog, hget],
           by simp [decodeClaimEvent, decodeClaimLog, hget]⟩
  · intro m t ht hlen
    rw [List.get?_eq_getElem?] at ht
    exact ⟨by simp [decodeBuyEvent, decodeBuyLog, ht, hlen],
           by simp [decodeClaimEvent, decodeClaimLog, ht, hlen]⟩
  · intro m hdata
    unfold decodeClaimEvent decodeClaimLog
    cases m.topics.get? 1 with
    | none => rfl
    | some t =>
        by_cases hlen : t.length = 66
        · simp only [hlen, if_true]
          cases getAddress ('0' :: 'x' :: t.drop 26) <;> simp [hdata]
        · simp [hlen]

/-- Witness for C9 at a concrete malformed record (no topics at all) inserted
into a Buy-log list. -/
theorem C9_malformed_records_skipped_witness :
    mainScan ([] ++ RawLog.mk [] [] :: []) [] = mainScan ([] ++ []) [] :=
  C9_malformed_records_skipped.2.1 [] [] [] (RawLog.mk [] []) rfl

theorem getAddress_padded (digits : List Char) (hlen : digits.length = 40)
    (hhex : digits.all isHexDigitChar = true) :
    getAddress ('0' :: 'x' :: digits) = some ('0' :: 'x' :: digits.map Char.toLower) := by
  simp [getAddress, hlen, hhex]

/-- C6: decoding a 32-byte indexed topic strips the leading 12 zero-padding
bytes (characters 2..25 of the 66-character topic string) and canonicalizes
the casing of the remaining 20 bytes, so two raw logs whose second topics are
differently-cased textual representations of the same account decode to the
same canonical address, and scanning both Buy records aggregates into exactly
one `buyCounts` entry — keyed by the canonical address, with count 2. -/
theorem C6_address_canonicalization (t₁ t₂ : List Char) (logA logB : RawLog)
    (hcase : t₁.map Char.toLower = t₂.map Char.toLower)
    (hlen : t₁.length = 66)
    (hhex₁ : (t₁.drop 26).all isHexDigitChar = true)
    (hhex₂ : (t₂.drop 26).all isHexDigitChar = true)
    (hA : logA.topics.get? 1 = some t₁) (hB : logB.topics.get? 1 = some t₂) :
    decodeBuyLog logA = some ('0' :: 'x' :: (t₁.drop 26).map Char.toLower) ∧
    decodeBuyLog logB = decodeBuyLog logA ∧
    (scanBuys [logA, logB] initScan).buyCounts
      = [(('0' :: 'x' :: (t₁.drop 26).map Char.toLower), 2)] := by
  have hlen₂ : t₂.length = 66 := by
    have h := congrArg List.length hcase
    simp only [List.length_map] at h
    omega
  have hdrop : (t₁.drop 26).map Char.toLower = (t₂.drop 26).map Char.toLower := by
    rw [List.map_drop, List.map_drop, hcase]
  have dA : decodeBuyLog logA = some ('0' :: 'x' :: (t₁.drop 26).map Char.toLower) := by
    unfold decodeBuyLog
    rw [hA]
    dsimp only
    rw [if_pos hlen, getAddress_padded _ (by rw [List.length_drop, hlen]) hhex₁]
  have dB : decodeBuyLog logB = some ('0' :: 'x' :: (t₁.drop 26).map Char.toLower) := by
    unfold decodeBuyLog
    rw [hB]
    dsimp only
    rw [if_pos hlen₂, getAddress_padded _ (by rw [List.length_drop, hlen₂]) hhex₂,
      ← hdrop]
  refine ⟨dA, dB.trans dA.symm, ?_⟩
  have sA : scanBuyLog initScan logA
      = applyEvent initScan (.buy ('0' :: 'x' :: (t₁.drop 26).map Char.toLower)) := by
    rw [scanBuyLog_eq_decode]
    simp [decodeBuyEvent, dA]
  have sB : scanBuyLog (applyEvent initScan
        (.buy ('0' :: 'x' :: (t₁.drop 26).map Char.toLower))) logB
      = applyEvent (applyEvent initScan
          (.buy ('0' :: 'x' :: (t₁.drop 26).map Char.toLower)))
          (.buy ('0' :: 'x' :: (t₁.drop 26).map Char.toLower)) := by
    rw [scanBuyLog_eq_decode]
    simp [decodeBuyEvent, dB]
  show (scanBuyLog (scanBuyLog initScan logA) logB).buyCounts = _
  rw [sA, sB]
  simp [applyEvent, initScan, alGet, alSet]

/-- Concrete second topic for the C6 witness: an account in lowercase hex,
padded to 32 bytes. -/
def topicLower : List Char :=
  "0x000000000000000000000000ca2538de53e21128b298a80d92f67b33605feecc".data

/-- The same account as `topicLower`, in uppercase hex. -/
def topicUpper : List Char :=
  "0x000000000000000000000000CA2538DE53E21128B298A80D92F67B33605FEECC".data

/-- Witness for C6 at the two concrete casings above. -/
theorem C6_address_canonicalization_witness :
    decodeBuyLog (RawLog.mk [[], topicLower] [])
        = some ('0' :: 'x' :: (topicLower.drop 26).map Char.toLower) ∧
    decodeBuyLog (RawLog.mk [[], topicUpper] [])
        = decodeBuyLog (RawLog.mk [[], topicLower] []) ∧
    (scanBuys [RawLog.mk [[], topicLower] [], RawLog.mk [[], topicUpper] []]
        initScan).buyCounts
      = [(('0' :: 'x' :: (topicLower.drop 26).map Char.toLower), 2)] :=
  C6_address_canonicalization topicLower topicUpper _ _ (by decide) (by decide)
    (by decide) (by decide) rfl rfl

/-- A provider error as inspected by route.ts: the JS lookup
`err?.code ?? err?.error?.code` is modelled as the single optional `code`
field (absent on errors that carry no code anywhere). -/
structure ProvErr where
  code : Option Int
deriving DecidableEq, Repr

/-- The provider's `getLogs` over an inclusive block range (address and topic
filter fixed by the route): matching log records, or an error. -/
structure Provider (α : Type) where
  getLogs : Nat → Nat → Except ProvErr (List α)

/-- `fetchLogsRecursive` (route.ts): issue one `getLogs` query for the range;
on error code -32005 with a range of more than one block, bisect at the
midpoint, recurse on both halves (`Promise.all`; when both halves fail we
surface the left error) and concatenate; re-throw any other error.
`fromBlock > toBlock` yields `[]` without a query. -/
def fetchLogsRecursive (P : Provider α) (fromBlock toBlock : Nat) :
    Except ProvErr (List α) :=
  if fromBlock > toBlock then .ok []
  else
    match P.getLogs fromBlock toBlock with
    | .ok logs => .ok logs
    | .error e =>
        if _h : e.code = some (-32005) ∧ fromBlock < toBlock then
          match fetchLogsRecursive P fromBlock ((fromBlock + toBlock) / 2),
                fetchLogsRecursive P ((fromBlock + toBlock) / 2 + 1) toBlock with
          | .ok left, .ok right => .ok (left ++ right)
          | .error e', _ => .error e'
          | .ok _, .error e' => .error e'
        else .error e
termination_by toBlock - fromBlock
decreasing_by
  · omega
  · omega

/-- A block-indexed store of matching log records: `logAt b` is the list of
logs matching the filter in block `b`. -/
structure LogStore (α : Type) where
  logAt : Nat → List α

/-- All matching logs of the inclusive range in block order — what a single
unrestricted `getLogs` query over the whole range returns. -/
def logsIn (S : LogStore α) (fromBlock toBlock : Nat) : List α :=
  ((List.range' fromBlock (toBlock + 1 - fromBlock)).map S.logAt).flatten

/-- A capacity-limited provider: returns all matching logs when their count
is at most `limit` and otherwise signals capacity-exceeded with code -32005
(Linea's "query returned more than 10000 results"). -/
def limitedProvider (S : LogStore α) (limit : Nat) : Provider α :=
  ⟨fun fromBlock toBlock =>
    if (logsIn S fromBlock toBlock).length ≤ limit then
      .ok (logsIn S fromBlock toBlock)
    else .error ⟨some (-32005)⟩⟩

theorem logsIn_empty (S : LogStore α) (lo hi : Nat) (h : hi < lo) :
    logsIn S lo hi = [] := by
  unfold logsIn
  have : hi + 1 - lo = 0 := by omega
  rw [this]
  rfl

theorem logsIn_single (S : LogStore α) (b : Nat) : logsIn S b b = S.logAt b := by
  unfold logsIn
  have : b + 1 - b = 1 := by omega
  rw [this]
  simp [List.range']

theorem logsIn_split (S : LogStore α) (lo mid hi : Nat) (h1 : lo ≤ mid + 1)
    (h2 : mid ≤ hi) :
    logsIn S lo mid ++ logsIn S (mid + 1) hi = logsIn S lo hi := by
  unfold logsIn
  rw [← List.flatten_append, ← List.map_append]
  have key := List.range'_append lo (mid + 1 - lo) (hi + 1 - (mid + 1)) 1
  have e1 : lo + 1 * (mid + 1 - lo) = mid + 1 := by omega
  have e2 : hi + 1 - (mid + 1) + (mid + 1 - lo) = hi + 1 - lo := by omega
  rw [e1, e2] at key
  rw [key]

/-- C1 (amended): over a capacity-limited provider whose per-block matching
log count never exceeds the threshold, the recursive splitting fetch over any
range returns exactly the logs of a single unrestricted query over that whole
range — equal even as lists, hence as multisets. -/
theorem C1_split_equivalence (S : LogStore α) (limit : Nat)
    (h : ∀ b, (S.logAt b).length ≤ limit) (fromBlock toBlock : Nat) :
    fetchLogsRecursive (limitedProvider S limit) fromBlock toBlock
      = .ok (logsIn S fromBlock toBlock) := by
  have main : ∀ n lo hi, hi - lo ≤ n →
      fetchLogsRecursive (limitedProvider S limit) lo hi = .ok (logsIn S lo hi) := by
    intro n
    induction n with
    | zero =>
        intro lo hi hle
        rw [fetchLogsRecursive]
        by_cases hgt : lo > hi
        · rw [if_pos hgt, logsIn_empty S lo hi hgt]
        · have heq : lo = hi := by omega
          subst heq
          rw [if_neg hgt]
          have hok : (limitedProvider S limit).getLogs lo lo = .ok (logsIn S lo lo) := by
            have : (logsIn S lo lo).length ≤ limit := by
              rw [logsIn_single]
              exact h lo
            simp [limitedProvider, this]
          rw [hok]
    | succ n ih =>
        intro lo hi hle
        rw [fetchLogsRecursive]
        by_cases hgt : lo > hi
        · rw [if_pos hgt, logsIn_empty S lo hi hgt]
        · rw [if_neg hgt]
          by_cases hcap : (logsIn S lo hi).length ≤ limit
          · have hok : (limitedProvider S limit).getLogs lo hi = .ok (logsIn S lo hi) := by
              simp [limitedProvider, hcap]
            rw [hok]
          · have hget : (limitedProvider S limit).getLogs lo hi
                = .error ⟨some (-32005)⟩ := by
              simp [limitedProvider, hcap]
            have hlt : lo < hi := by
              rcases Nat.lt_or_ge lo hi with hl | hg
              · exact hl
              · exfalso
                have heq : lo = hi := by omega
                subst heq
                rw [logsIn_single] at hcap
                exact hcap (h lo)
            rw [hget]
            dsimp only
            rw [dif_pos (show (ProvErr.mk (some (-32005))).code = some (-32005)
                  ∧ lo < hi from ⟨rfl, hlt⟩)]
            rw [ih lo ((lo + hi) / 2) (by omega), ih ((lo + hi) / 2 + 1) hi (by omega)]
            dsimp only
            rw [logsIn_split S lo ((lo + hi) / 2) hi (by omega) (by omega)]
  exact main (toBlock - fromBlock) fromBlock toBlock (Nat.le_refl _)

/-- Log store for the C1 counterexample: one matching log (payload 7) in
block 0, nothing elsewhere. -/
def cxStore : LogStore Nat := ⟨fun b => if b = 0 then [7] else []⟩

/-- Counterexample to C1 as stated: with capacity threshold 0 the provider
signals capacity-exceeded even on the single-block range [0,0]; the recursive
fetch surfaces that error instead of returning any multiset, while the
unrestricted query over the range returns the one log. The equivalence needs
the proviso that every single block fits the threshold (amended theorem). -/
theorem C1_counterexample :
    fetchLogsRecursive (limitedProvider cxStore 0) 0 0 = .error ⟨some (-32005)⟩ ∧
    logsIn cxStore 0 0 = [7] := by
  constructor
  · rw [fetchLogsRecursive]
    have hget : (limitedProvider cxStore 0).getLogs 0 0 = .error ⟨some (-32005)⟩ := by
      simp [limitedProvider, logsIn_single, cxStore]
    rw [if_neg (by omega : ¬(0 : Nat) > 0), hget]
    dsimp only
    rw [dif_neg (show ¬((ProvErr.mk (some (-32005))).code = some (-32005)
          ∧ (0 : Nat) < 0) by simp)]
  · rw [logsIn_single]
    rfl

/-- Log store for the C1 witness: one log in each of blocks 0 and 1. -/
def witnessStore : LogStore Nat :=
  ⟨fun b => if b = 0 then [10] else if b = 1 then [20] else []⟩

/-- Witness for the amended C1 theorem at a concrete two-block store with
threshold 1, where the range [0,1] holds two logs and must be split. -/
theorem C1_split_equivalence_witness :
    fetchLogsRecursive (limitedProvider witnessStore 1) 0 1
      = .ok (logsIn witnessStore 0 1) :=
  C1_split_equivalence witnessStore 1
    (by
      intro b
      simp only [witnessStore]
      split
      · simp
      · split <;> simp)
    0 1

/-- C7 (amended): every error `fetchLogsRecursive` surfaces is an error some
provider `getLogs` call over a sub-range of the requested range returned,
propagated unchanged — the fetcher does not retry it — and a surfaced
capacity-exceeded error (code -32005) can only come from a single-block
query: a capacity-exceeded response on a range of more than one block is
never itself surfaced, it is always recovered by splitting. -/
theorem C7_error_propagation (P : Provider α) (fromBlock toBlock : Nat)
    (e : ProvErr)
    (h : fetchLogsRecursive P fromBlock toBlock = .error e) :
    ∃ a b, fromBlock ≤ a ∧ a ≤ b ∧ b ≤ toBlock ∧ P.getLogs a b = .error e ∧
      (e.code = some (-32005) → a = b) := by
  have main : ∀ n lo hi, hi - lo ≤ n →
      fetchLogsRecursive P lo hi = .error e →
      ∃ a b, lo ≤ a ∧ a ≤ b ∧ b ≤ hi ∧ P.getLogs a b = .error e ∧
        (e.code = some (-32005) → a = b) := by
    intro n
    induction n with
    | zero =>
        intro lo hi hle hf
        rw [fetchLogsRecursive] at hf
        by_cases hgt : lo > hi
        · rw [if_pos hgt] at hf
          cases hf
        · rw [if_neg hgt] at hf
          cases hg : P.getLogs lo hi with
          | ok logs =>
              rw [hg] at hf
              cases hf
          | error e0 =>
              rw [hg] at hf
              dsimp only at hf
              by_cases hcond : e0.code = some (-32005) ∧ lo < hi
              · exact absurd hcond.2 (by omega)
              · rw [dif_neg hcond] at hf
                injection hf with he
                subst he
                exact ⟨lo, hi, Nat.le_refl lo, by omega, Nat.le_refl hi, hg,
                  fun _ => by omega⟩
    | succ n ih =>
        intro lo hi hle hf
        rw [fetchLogsRecursive] at hf
        by_cases hgt : lo > hi
        · rw [if_pos hgt] at hf
          cases hf
        · rw [if_neg hgt] at hf
          cases hg : P.getLogs lo hi with
          | ok logs =>
              rw [hg] at hf
              cases hf
          | error e0 =>
              rw [hg] at hf
              dsimp only at hf
              by_cases hcond : e0.code = some (-32005) ∧ lo < hi
              · rw [dif_pos hcond] at hf
                cases h1 : fetchLogsRecursive P lo ((lo + hi) / 2) with
                | ok left =>
                    cases h2 : fetchLogsRecursive P ((lo + hi) / 2 + 1) hi with
                    | ok right =>
                        rw [h1, h2] at hf
                        cases hf
                    | error e2 =>
                        rw [h1, h2] at hf
                        dsimp only at hf
                        injection hf with he
                        subst he
                        obtain ⟨a, b, ha1, hab, hb1, hq, hc⟩ :=
                          ih ((lo + hi) / 2 + 1) hi (by omega) h2
                        exact ⟨a, b, by omega, hab, hb1, hq, hc⟩
                | error e1 =>
                    rw [h1] at hf
                    cases h2 : fetchLogsRecursive P ((lo + hi) / 2 + 1) hi with
                    | ok right =>
                        rw [h2] at hf
                        dsimp only at hf
                        injection hf with he
                        subst he
                        obtain ⟨a, b, ha1, hab, hb1, hq, hc⟩ :=
                          ih lo ((lo + hi) / 2) (by omega) h1
                        exact ⟨a, b, ha1, hab, by omega, hq, hc⟩
                    | error e2 =>
                        rw [h2] at hf
                        dsimp only at hf
                        injection hf with he
                        subst he
                        obtain ⟨a, b, ha1, hab, hb1, hq, hc⟩ :=
                          ih lo ((lo + hi) / 2) (by omega) h1
                        exact ⟨a, b, ha1, hab, by omega, hq, hc⟩
              · rw [dif_neg hcond] at hf
                injection hf with he
                subst he
                refine ⟨lo, hi, Nat.le_refl lo, by omega, Nat.le_refl hi, hg, ?_⟩
                intro hc
                by_contra hne
                exact hcond ⟨hc, by omega⟩
  exact main (toBlock - fromBlock) fromBlock toBlock (Nat.le_refl _) h

/-- Provider that always reports capacity-exceeded. -/
def alwaysCapacity : Provider Nat := ⟨fun _ _ => .error ⟨some (-32005)⟩⟩

/-- Counterexample to C7 as stated: the fetch can fail WITH a capacity error —
on the single-block range [5,5] a capacity-exceeded response is re-thrown, so
the fetcher does not fail only with non-capacity provider failures. -/
theorem C7_counterexample :
    fetchLogsRecursive alwaysCapacity 5 5 = .error ⟨some (-32005)⟩ := by
  rw [fetchLogsRecursive]
  rw [if_neg (by omega : ¬(5 : Nat) > 5)]
  dsimp only [alwaysCapacity]
  rw [dif_neg (show ¬((ProvErr.mk (some (-32005))).code = some (-32005)
        ∧ (5 : Nat) < 5) by simp)]

/-- Provider that always fails with a code-less (non-capacity) error. -/
def alwaysFail : Provider Nat := ⟨fun _ _ => .error ⟨none⟩⟩

/-- Witness for the amended C7 theorem at a concrete failing provider. -/
theorem C7_error_propagation_witness :
    ∃ a b, 0 ≤ a ∧ a ≤ b ∧ b ≤ 3 ∧ alwaysFail.getLogs a b = .error ⟨none⟩ ∧
      ((ProvErr.mk none).code = some (-32005) → a = b) :=
  C7_error_propagation alwaysFail 0 3 ⟨none⟩ (by
    rw [fetchLogsRecursive]
    rw [if_neg (by omega : ¬(0 : Nat) > 3)]
    dsimp only [alwaysFail]
    rw [dif_neg (show ¬((ProvErr.mk none).code = some (-32005)
          ∧ (0 : Nat) < 3) by simp)])

/-- A leaderboard row (route.ts `LeaderboardRow`). -/
structure LeaderboardRow where
  wallet : Addr
  totalBuys : Nat
deriving DecidableEq, Repr

/-- The module-level cache slot of route.ts (`cachedRows`, `cachedAt`). -/
structure CacheState where
  cachedRows : Option (List LeaderboardRow)
  cachedAt : Nat
deriving DecidableEq, Repr

def CACHE_TTL_MS : Nat := 30000

/-- Opaque reason a refresh failed (the exception the handler catches). -/
inductive RefreshErr where
  | providerFailure
deriving DecidableEq, Repr

/-- Status and JSON body of a handler response. -/
structure GETResponse where
  status : Nat
  rows : List LeaderboardRow
  error : Option String
deriving DecidableEq, Repr

/-- The GET handler of route.ts as a function of the cache slot, the current
time and the outcome of `fetchLeaderboardFromChain` (consulted only when the
cache is absent or expired). Returns the response and the updated slot.
JS time subtraction on a clock that moved backwards is negative, hence below
the TTL; Nat truncated subtraction gives 0, likewise below the TTL. The
second `Date.now()` call is modelled as the same instant `now`. -/
def handleGET (st : CacheState) (now : Nat)
    (refresh : Except RefreshErr (List LeaderboardRow)) :
    GETResponse × CacheState :=
  match st.cachedRows with
  | some rows =>
      if now - st.cachedAt < CACHE_TTL_MS then
        (⟨200, rows, none⟩, st)
      else
        match refresh with
        | .ok fresh => (⟨200, fresh, none⟩, ⟨some fresh, now⟩)
        | .error _ =>
            if rows.length > 0 then
              (⟨200, rows,
                some "Failed to refresh leaderboard, serving cached data."⟩, st)
            else
              (⟨500, [], some "Failed to load leaderboard"⟩, st)
  | none =>
      match refresh with
      | .ok fresh => (⟨200, fresh, none⟩, ⟨some fresh, now⟩)
      | .error _ => (⟨500, [], some "Failed to load leaderboard"⟩, st)

/-- Counterexample to C3 as stated: a prior snapshot exists (it has zero
rows), the cache is expired and the refresh fails — yet the handler responds
with an HTTP 500 error instead of serving the prior snapshot with an
outdated-result indication. -/
theorem C3_counterexample :
    handleGET ⟨some [], 1⟩ 40000 (.error .providerFailure)
        = (⟨500, [], some "Failed to load leaderboard"⟩, ⟨some [], 1⟩) ∧
    (handleGET ⟨some [], 1⟩ 40000 (.error .providerFailure)).1.status ≠ 200 := by
  constructor
  · rfl
  · decide

/-- C3 (amended): when a prior snapshot with at least one row exists, the
cache is expired and the refresh fails, the handler returns the previous
snapshot's rows with HTTP 200 and the served-cached-data indication — the
error is not propagated and the slot is unchanged; when no prior snapshot
exists, the same refresh failure surfaces as an HTTP 500 error response.
(The code additionally requires the prior snapshot to be non-empty; an
existing zero-row snapshot surfaces the error instead — see C10.) -/
theorem C3_stale_fallback (rows : List LeaderboardRow) (t now : Nat)
    (e : RefreshErr) (hne : rows ≠ []) (hstale : CACHE_TTL_MS ≤ now - t) :
    handleGET ⟨some rows, t⟩ now (.error e)
      = (⟨200, rows, some "Failed to refresh leaderboard, serving cached data."⟩,
         ⟨some rows, t⟩) ∧
    handleGET ⟨none, t⟩ now (.error e)
      = (⟨500, [], some "Failed to load leaderboard"⟩, ⟨none, t⟩) := by
  constructor
  · have hlt : ¬ (now - t < CACHE_TTL_MS) := by
      simp only [CACHE_TTL_MS] at hstale ⊢
      omega
    have hpos : rows.length > 0 := List.length_pos.mpr hne
    unfold handleGET
    dsimp only
    rw [if_neg hlt]
    simp [hpos]
  · rfl

/-- Witness for the amended C3 theorem at a concrete one-row prior snapshot
and an expired cache. -/
theorem C3_stale_fallback_witness :
    handleGET ⟨some [⟨['a'], 1⟩], 0⟩ 30000 (.error .providerFailure)
      = (⟨200, [⟨['a'], 1⟩],
          some "Failed to refresh leaderboard, serving cached data."⟩,
         ⟨some [⟨['a'], 1⟩], 0⟩) ∧
    handleGET ⟨none, 0⟩ 30000 (.error .providerFailure)
      = (⟨500, [], some "Failed to load leaderboard"⟩, ⟨none, 0⟩) :=
  C3_stale_fallback [⟨['a'], 1⟩] 0 30000 .providerFailure (by decide) (by decide)

/-- C10: the stale-fallback path of the handler is taken only for a non-empty
cached row list — with an expired cache and a failed refresh, the handler
serves the cached rows (with the staleness message) exactly when they are
non-empty, and returns an HTTP 500 error with an empty rows array when the
previously published snapshot has zero rows. -/
theorem C10_empty_snapshot_not_served (rows : List LeaderboardRow) (t now : Nat)
    (e : RefreshErr) (hstale : CACHE_TTL_MS ≤ now - t) :
    handleGET ⟨some rows, t⟩ now (.error e)
      = if rows.isEmpty then
          (⟨500, [], some "Failed to load leaderboard"⟩, ⟨some rows, t⟩)
        else
          (⟨200, rows, some "Failed to refresh leaderboard, serving cached data."⟩,
           ⟨some rows, t⟩) := by
  have hlt : ¬ (now - t < CACHE_TTL_MS) := by
    simp only [CACHE_TTL_MS] at hstale ⊢
    omega
  unfold handleGET
  dsimp only
  rw [if_neg hlt]
  cases rows with
  | nil => simp
  | cons r rest => simp

/-- Witness for C10 at a concrete zero-row prior snapshot: the failed refresh
yields HTTP 500 with empty rows instead of serving the stale snapshot. -/
theorem C10_empty_snapshot_not_served_witness :
    handleGET ⟨some [], 0⟩ 30000 (.error .providerFailure)
      = (⟨500, [], some "Failed to load leaderboard"⟩, ⟨some [], 0⟩) := by
  have h := C10_empty_snapshot_not_served [] 0 30000 .providerFailure (by decide)
  simpa using h

/-- What one wallet's pair of contract reads returns on success
(`totalBuys(wallet)`, `claimableBuys(wallet)`). -/
structure ReadPayload where
  totalBuys : Nat
  claimableBuys : Nat
deriving DecidableEq, Repr

/-- A failed per-wallet read (the error the worker's catch block receives). -/
inductive ReadErr where
  | readFailure
deriving DecidableEq, Repr

/-- An output row of the enrichment phase (the export-script `Row`):
`totalClaims = Math.max(0, totalBuys - claimableBuys)`, which is exactly Nat
truncated subtraction. -/
structure EnrichRow where
  wallet : Addr
  totalBuys : Nat
  totalClaims : Nat
deriving DecidableEq, Repr

/-- The row a worker pushes for wallet `a`: the derived payload row when both
reads succeed, the zero row (`{wallet, totalBuys: 0, totalClaims: 0}`) pushed
by the catch block — the code's failure marker — when they fail. -/
def rowFor (reader : Addr → Except ReadErr ReadPayload) (a : Addr) : EnrichRow :=
  match reader a with
  | .ok p => ⟨a, p.totalBuys, p.totalBuys - p.claimableBuys⟩
  | .error _ => ⟨a, 0, 0⟩

/-- Does wallet `a`'s read fail? -/
def readFails (reader : Addr → Except ReadErr ReadPayload) (a : Addr) : Bool :=
  match reader a with
  | .ok _ => false
  | .error _ => true

/-- Shared state of the worker pool (`worker` in the unnamed export-script
variants): the shared `index` cursor, the indices claimed by workers whose
reads are still in flight, and the shared `rows` output array. -/
structure PoolState where
  nextIdx : Nat
  inFlight : List Nat
  rows : List EnrichRow
deriving DecidableEq, Repr

/-- One scheduler action: an idle worker claims the next index (the
`const i = index; index++` prefix runs atomically between awaits), or the
in-flight reads of index `i` resolve and their row is pushed — in any order,
the schedule decides. -/
inductive PoolAction where
  | claim
  | complete (i : Nat)
deriving DecidableEq, Repr

def initPool : PoolState := ⟨0, [], []⟩

/-- Small-step semantics of the pool of `K` workers over `wallets`: a claim
needs remaining work and an idle worker (fewer than `K` reads in flight, one
per worker); a completion needs its index in flight. `none` when the action
is not enabled. -/
def poolStep (K : Nat) (wallets : List Addr)
    (reader : Addr → Except ReadErr ReadPayload) (st : PoolState) :
    PoolAction → Option PoolState
  | .claim =>
      if st.nextIdx < wallets.length ∧ st.inFlight.length < K then
        some ⟨st.nextIdx + 1, st.nextIdx :: st.inFlight, st.rows⟩
      else none
  | .complete i =>
      if i ∈ st.inFlight then
        some ⟨st.nextIdx, st.inFlight.erase i,
              st.rows ++ [rowFor reader (wallets.getD i [])]⟩
      else none

/-- Run a schedule of actions; `none` if some action is not enabled. -/
def poolRun (K : Nat) (wallets : List Addr)
    (reader : Addr → Except ReadErr ReadPayload) (st : PoolState) :
    List PoolAction → Option PoolState
  | [] => some st
  | act :: rest =>
      match poolStep K wallets reader st act with
      | some st' => poolRun K wallets reader st' rest
      | none => none

/-- The pool is finished: the cursor passed the last wallet and every
in-flight read has resolved (all workers idle, queue empty). -/
def poolDone (wallets : List Addr) (st : PoolState) : Prop :=
  st.nextIdx = wallets.length ∧ st.inFlight = []

/-- Pool invariant: the cursor stays in range, claimed-but-unfinished indices
are distinct and below the cursor, and the rows pushed so far are exactly
(as a multiset) the rows of the claimed-and-completed indices. -/
def poolInv (wallets : List Addr) (reader : Addr → Except ReadErr ReadPayload)
    (st : PoolState) : Prop :=
  st.nextIdx ≤ wallets.length ∧
  st.inFlight.Nodup ∧
  (∀ i ∈ st.inFlight, i < st.nextIdx) ∧
  st.rows.Perm
    (((List.range st.nextIdx).filter (fun i => i ∉ st.inFlight)).map
      (fun i => rowFor reader (wallets.getD i [])))

theorem poolStep_inv {K : Nat} {wallets : List Addr}
    {reader : Addr → Except ReadErr ReadPayload} {st st' : PoolState}
    {act : PoolAction} (hinv : poolInv wallets reader st)
    (hstep : poolStep K wallets reader st act = some st') :
    poolInv wallets reader st' := by
  obtain ⟨hle, hnd, hlt, hperm⟩ := hinv
  cases act with
  | claim =>
      simp only [poolStep] at hstep
      by_cases hcond : st.nextIdx < wallets.length ∧ st.inFlight.length < K
      · rw [if_pos hcond] at hstep
        injection hstep with he
        subst he
        unfold poolInv
        refine ⟨?_, ?_, ?_, ?_⟩ <;> dsimp only
        · omega
        · exact List.nodup_cons.mpr
            ⟨fun hmem => absurd (hlt _ hmem) (by omega), hnd⟩
        · intro i hi
          rcases List.mem_cons.mp hi with h | h
          · omega
          · have := hlt i h
            omega
        · rw [List.range_succ, List.filter_append]
          have h1 : (List.range st.nextIdx).filter
                (fun i => i ∉ st.nextIdx :: st.inFlight)
              = (List.range st.nextIdx).filter (fun i => i ∉ st.inFlight) := by
            apply List.filter_congr
            intro i hi
            have hilt : i < st.nextIdx := List.mem_range.mp hi
            have hne : i ≠ st.nextIdx := by omega
            simp [hne]
          have h2 : [st.nextIdx].filter
                (fun i => i ∉ st.nextIdx :: st.inFlight) = [] := by
            simp [List.filter]
          rw [h1, h2, List.append_nil]
          exact hperm
      · rw [if_neg hcond] at hstep
        cases hstep
  | complete i =>
      simp only [poolStep] at hstep
      by_cases hcond : i ∈ st.inFlight
      · rw [if_pos hcond] at hstep
        injection hstep with he
        subst he
        unfold poolInv
        refine ⟨?_, ?_, ?_, ?_⟩ <;> dsimp only
        · exact hle
        · exact hnd.erase i
        · intro j hj
          exact hlt j (List.mem_of_mem_erase hj)
        · have hkey : ((List.range st.nextIdx).filter
                (fun j => j ∉ st.inFlight.erase i)).Perm
              (i :: (List.range st.nextIdx).filter (fun j => j ∉ st.inFlight)) := by
            have hnd1 : ((List.range st.nextIdx).filter
                (fun j => j ∉ st.inFlight.erase i)).Nodup :=
              List.Nodup.filter _ (List.nodup_range _)
            have hinot : i ∉ (List.range st.nextIdx).filter
                (fun j => j ∉ st.inFlight) := by
              intro hmem
              have hh := (List.mem_filter.mp hmem).2
              simp only [decide_not, Bool.not_eq_true', decide_eq_false_iff_not] at hh
              exact hh hcond
            have hnd2 : (i :: (List.range st.nextIdx).filter
                (fun j => j ∉ st.inFlight)).Nodup :=
              List.nodup_cons.mpr ⟨hinot, List.Nodup.filter _ (List.nodup_range _)⟩
            rw [List.perm_ext_iff_of_nodup hnd1 hnd2]
            intro j
            simp only [List.mem_filter, List.mem_range, List.mem_cons, decide_not,
              Bool.not_eq_true', decide_eq_false_iff_not]
            constructor
            · rintro ⟨hjlt, hjer⟩
              by_cases hji : j = i
              · exact Or.inl hji
              · refine Or.inr ⟨hjlt, fun hjf => hjer ?_⟩
                exact (List.Nodup.mem_erase_iff hnd).mpr ⟨hji, hjf⟩
            · rintro (hji | ⟨hjlt, hjf⟩)
              · subst hji
                refine ⟨hlt j hcond, fun hjer => ?_⟩
                exact ((List.Nodup.mem_erase_iff hnd).mp hjer).1 rfl
              · refine ⟨hjlt, fun hjer => ?_⟩
                exact hjf (List.mem_of_mem_erase hjer)
          have p1 : (st.rows ++ [rowFor reader (wallets.getD i [])]).Perm
              (rowFor reader (wallets.getD i []) :: st.rows) :=
            List.perm_append_singleton _ _
          have p2 : (rowFor reader (wallets.getD i []) :: st.rows).Perm
              (rowFor reader (wallets.getD i []) ::
                ((List.range st.nextIdx).filter
                  (fun j => j ∉ st.inFlight)).map
                  (fun j => rowFor reader (wallets.getD j []))) :=
            hperm.cons _
          have p3 := (hkey.map (fun j => rowFor reader (wallets.getD j []))).symm
          exact p1.trans (p2.trans p3)
      · rw [if_neg hcond] at hstep
        cases hstep

theorem poolRun_inv {K : Nat} {wallets : List Addr}
    {reader : Addr → Except ReadErr ReadPayload} {st st' : PoolState}
    {acts : List PoolAction} (hinv : poolInv wallets reader st)
    (hrun : poolRun K wallets reader st acts = some st') :
    poolInv wallets reader st' := by
  induction acts generalizing st with
  | nil =>
      simp only [poolRun] at hrun
      injection hrun with he
      subst he
      exact hinv
  | cons act rest ih =>
      simp only [poolRun] at hrun
      cases hs : poolStep K wallets reader st act with
      | none =>
          rw [hs] at hrun
          cases hrun
      | some st1 =>
          rw [hs] at hrun
          exact ih (poolStep_inv hinv hs) hrun

theorem initPool_inv (wallets : List Addr)
    (reader : Addr → Except ReadErr ReadPayload) :
    poolInv wallets reader initPool := by
  refine ⟨Nat.zero_le _, List.nodup_nil, ?_, ?_⟩
  · intro i hi
    cases hi
  · simp [initPool]

theorem map_getD_range (l : List α) (d : α) (f : α → β) :
    (List.range l.length).map (fun i => f (l.getD i d)) = l.map f := by
  induction l with
  | nil => rfl
  | cons x xs ih =>
      rw [List.length_cons, List.range_succ_eq_map, List.map_cons, List.map_map]
      simp only [List.getD_cons_zero, Function.comp_def, List.getD_cons_succ]
      rw [ih, List.map_cons]

theorem poolDone_rows {wallets : List Addr}
    {reader : Addr → Except ReadErr ReadPayload} {st : PoolState}
    (hinv : poolInv wallets reader st) (hdone : poolDone wallets st) :
    st.rows.Perm (wallets.map (rowFor reader)) := by
  obtain ⟨hn, hf⟩ := hdone
  have hperm := hinv.2.2.2
  rw [hn, hf] at hperm
  have hfilter : (List.range wallets.length).filter
      (fun i => i ∉ ([] : List Nat)) = List.range wallets.length :=
    List.filter_eq_self.mpr (by intro a _; simp)
  rw [hfilter, map_getD_range] at hperm
  exact hperm

/-- The sequential schedule from index `start` for `k` remaining wallets:
claim, complete, continue — realizable by any pool with at least one
worker. -/
def seqActs : Nat → Nat → List PoolAction
  | _, 0 => []
  | start, k + 1 => .claim :: .complete start :: seqActs (start + 1) k

theorem seqActs_complete (K : Nat) (wallets : List Addr)
    (reader : Addr → Except ReadErr ReadPayload) (hK : 0 < K) :
    ∀ k n rows, n + k = wallets.length →
      ∃ rows', poolRun K wallets reader ⟨n, [], rows⟩ (seqActs n k)
        = some ⟨wallets.length, [], rows'⟩ := by
  intro k
  induction k with
  | zero =>
      intro n rows h
      refine ⟨rows, ?_⟩
      simp only [seqActs, poolRun]
      rw [Nat.add_zero] at h
      rw [h]
  | succ k ih =>
      intro n rows h
      have hstep1 : poolStep K wallets reader ⟨n, [], rows⟩ .claim
          = some ⟨n + 1, [n], rows⟩ := by
        simp only [poolStep, List.length_nil]
        rw [if_pos ⟨by omega, hK⟩]
      have hstep2 : poolStep K wallets reader ⟨n + 1, [n], rows⟩ (.complete n)
          = some ⟨n + 1, [], rows ++ [rowFor reader (wallets.getD n [])]⟩ := by
        simp only [poolStep]
        rw [if_pos (show n ∈ (PoolState.mk (n + 1) [n] rows).inFlight from
          List.mem_singleton.mpr rfl)]
        simp [List.erase_cons_head]
      obtain ⟨rows', hrun⟩ :=
        ih (n + 1) (rows ++ [rowFor reader (wallets.getD n [])]) (by omega)
      refine ⟨rows', ?_⟩
      simp only [seqActs, poolRun, hstep1, hstep2]
      exact hrun

theorem rowFor_wallet (reader : Addr → Except ReadErr ReadPayload) (a : Addr) :
    (rowFor reader a).wallet = a := by
  unfold rowFor
  cases reader a <;> rfl

/-- C4: any schedule of the `K`-worker pool that runs to completion over the
discovered wallets outputs exactly one row per wallet — a permutation of the
expected per-wallet rows, where each wallet whose reads fail carries the
zero-row marker pushed by the catch block and every other wallet carries its
read payload; marker and payload counts match the failing/succeeding wallet
counts regardless of `K` and of how the reads interleave; and for every
`K ≥ 1` a completing schedule exists — no single wallet's read failure aborts
the batch. -/
theorem C4_pool_completeness (K : Nat) (wallets : List Addr)
    (reader : Addr → Except ReadErr ReadPayload) (acts : List PoolAction)
    (st : PoolState) (hK : 0 < K)
    (hrun : poolRun K wallets reader initPool acts = some st)
    (hdone : poolDone wallets st) :
    st.rows.Perm (wallets.map (rowFor reader)) ∧
    st.rows.length = wallets.length ∧
    st.rows.countP (fun r => readFails reader r.wallet)
      = wallets.countP (readFails reader) ∧
    st.rows.countP (fun r => !readFails reader r.wallet)
      = wallets.countP (fun a => !readFails reader a) ∧
    (∀ a e, reader a = .error e → rowFor reader a = ⟨a, 0, 0⟩) ∧
    (∀ a p, reader a = .ok p
      → rowFor reader a = ⟨a, p.totalBuys, p.totalBuys - p.claimableBuys⟩) ∧
    (∃ acts' st', poolRun K wallets reader initPool acts' = some st'
      ∧ poolDone wallets st') := by
  have hperm := poolDone_rows (poolRun_inv (initPool_inv wallets reader) hrun) hdone
  refine ⟨hperm, ?_, ?_, ?_, ?_, ?_, ?_⟩
  · rw [hperm.length_eq, List.length_map]
  · rw [hperm.countP_eq, List.countP_map]
    apply List.countP_congr
    intro a _
    simp [Function.comp, rowFor_wallet]
  · rw [hperm.countP_eq, List.countP_map]
    apply List.countP_congr
    intro a _
    simp [Function.comp, rowFor_wallet]
  · intro a e he
    simp [rowFor, he]
  · intro a p hp
    simp [rowFor, hp]
  · obtain ⟨rows', hr⟩ :=
      seqActs_complete K wallets reader hK wallets.length 0 [] (by omega)
    exact ⟨seqActs 0 wallets.length, ⟨wallets.length, [], rows'⟩, hr, rfl, rfl⟩

/-- Wallets for the C4 witness. -/
def poolWallets : List Addr := [['a'], ['b']]

/-- Reader for the C4 witness: wallet `b`'s reads always fail, wallet `a`'s
succeed with `totalBuys = 3`, `claimableBuys = 1`. -/
def poolReader : Addr → Except ReadErr ReadPayload :=
  fun a => if a = ['b'] then .error .readFailure else .ok ⟨3, 1⟩

/-- Final state of the C4 witness run (out-of-order completion: wallet `b`'s
read resolves before wallet `a`'s). -/
def poolFinal : PoolState := ⟨2, [], [⟨['b'], 0, 0⟩, ⟨['a'], 3, 2⟩]⟩

/-- Witness for C4 at a concrete two-wallet run with `K = 2`, one failing
wallet and out-of-order completions. -/
theorem C4_pool_completeness_witness :
    poolFinal.rows.Perm (poolWallets.map (rowFor poolReader)) ∧
    poolFinal.rows.length = poolWallets.length ∧
    poolFinal.rows.countP (fun r => readFails poolReader r.wallet)
      = poolWallets.countP (readFails poolReader) ∧
    poolFinal.rows.countP (fun r => !readFails poolReader r.wallet)
      = poolWallets.countP (fun a => !readFails poolReader a) ∧
    (∀ a e, poolReader a = .error e → rowFor poolReader a = ⟨a, 0, 0⟩) ∧
    (∀ a p, poolReader a = .ok p
      → rowFor poolReader a = ⟨a, p.totalBuys, p.totalBuys - p.claimableBuys⟩) ∧
    (∃ acts' st', poolRun 2 poolWallets poolReader initPool acts' = some st'
      ∧ poolDone poolWallets st') :=
  C4_pool_completeness 2 poolWallets poolReader
    [.claim, .claim, .complete 1, .complete 0] poolFinal
    (by decide) (by decide) ⟨rfl, rfl⟩

/-- Stable insertion into a descending-sorted list: `x` is placed after every
element whose key is at least `key x` — the position JS's stable
`Array.prototype.sort` with comparator `(a, b) => key(b) - key(a)` gives a
later-arriving equal key. -/
def insertDesc (key : α → Nat) (x : α) : List α → List α
  | [] => [x]
  | y :: ys => if key y < key x then x :: y :: ys else y :: insertDesc key x ys

/-- Stable descending sort by `key`: the result of
`rows.sort((a, b) => b[key] - a[key])`. -/
def sortDesc (key : α → Nat) (l : List α) : List α :=
  l.foldl (fun acc x => insertDesc key x acc) []

/-- `render` (§4.6 ResultExporter): rows sorted descending by the chosen
numeric key, truncated to the first `limit` rows (`.sort(...).slice(0,
limit)` in route.ts). -/
def render (l : List α) (key : α → Nat) (limit : Nat) : List α :=
  (sortDesc key l).take limit

theorem insertDesc_perm (key : α → Nat) (x : α) (l : List α) :
    (insertDesc key x l).Perm (x :: l) := by
  induction l with
  | nil => exact List.Perm.refl _
  | cons y ys ih =>
      unfold insertDesc
      by_cases h : key y < key x
      · rw [if_pos h]
      · rw [if_neg h]
        exact (ih.cons y).trans (List.Perm.swap x y ys)

theorem mem_insertDesc {key : α → Nat} {x z : α} {l : List α} :
    z ∈ insertDesc key x l ↔ z = x ∨ z ∈ l := by
  rw [(insertDesc_perm key x l).mem_iff]
  exact List.mem_cons

theorem sortDesc_perm (key : α → Nat) (l : List α) : (sortDesc key l).Perm l := by
  suffices h : ∀ acc, (l.foldl (fun acc x => insertDesc key x acc) acc).Perm
      (acc ++ l) by
    simpa [sortDesc] using h []
  induction l with
  | nil =>
      intro acc
      simp
  | cons x t ih =>
      intro acc
      rw [List.foldl_cons]
      refine (ih (insertDesc key x acc)).trans ?_
      have h1 : (insertDesc key x acc ++ t).Perm ((x :: acc) ++ t) :=
        (insertDesc_perm key x acc).append_right t
      exact h1.trans List.perm_middle.symm

theorem insertDesc_pairwise {key : α → Nat} {x : α} {l : List α}
    (h : l.Pairwise (fun a b => key b ≤ key a)) :
    (insertDesc key x l).Pairwise (fun a b => key b ≤ key a) := by
  induction l with
  | nil => simp [insertDesc]
  | cons y ys ih =>
      rw [List.pairwise_cons] at h
      obtain ⟨hy, hys⟩ := h
      unfold insertDesc
      by_cases hc : key y < key x
      · rw [if_pos hc]
        refine List.pairwise_cons.mpr ⟨?_, List.pairwise_cons.mpr ⟨hy, hys⟩⟩
        intro z hz
        rcases List.mem_cons.mp hz with h | h
        · subst h
          omega
        · have := hy z h
          omega
      · rw [if_neg hc]
        refine List.pairwise_cons.mpr ⟨?_, ih hys⟩
        intro z hz
        rcases mem_insertDesc.mp hz with h | h
        · subst h
          omega
        · exact hy z h

theorem sortDesc_pairwise (key : α → Nat) (l : List α) :
    (sortDesc key l).Pairwise (fun a b => key b ≤ key a) := by
  suffices h : ∀ acc, acc.Pairwise (fun a b => key b ≤ key a) →
      (l.foldl (fun acc x => insertDesc key x acc) acc).Pairwise
        (fun a b => key b ≤ key a) from h [] List.Pairwise.nil
  induction l with
  | nil =>
      intro acc h
      exact h
  | cons x t ih =>
      intro acc hacc
      rw [List.foldl_cons]
      exact ih _ (insertDesc_pairwise hacc)

theorem filter_insertDesc_ne {key : α → Nat} {x : α} {l : List α} {k : Nat}
    (hx : key x ≠ k) :
    (insertDesc key x l).filter (fun z => key z = k)
      = l.filter (fun z => key z = k) := by
  induction l with
  | nil => simp [insertDesc, hx]
  | cons y ys ih =>
      unfold insertDesc
      by_cases hc : key y < key x
      · rw [if_pos hc]
        rw [List.filter_cons, List.filter_cons]
        simp [hx]
      · rw [if_neg hc]
        rw [List.filter_cons, List.filter_cons, ih]

theorem filter_insertDesc_eq {key : α → Nat} {x : α} {l : List α} {k : Nat}
    (hs : l.Pairwise (fun a b => key b ≤ key a)) (hx : key x = k) :
    (insertDesc key x l).filter (fun z => key z = k)
      = l.filter (fun z => key z = k) ++ [x] := by
  induction l with
  | nil => simp [insertDesc, hx]
  | cons y ys ih =>
      rw [List.pairwise_cons] at hs
      obtain ⟨hy, hys⟩ := hs
      unfold insertDesc
      by_cases hc : key y < key x
      · rw [if_pos hc]
        have hnone : (y :: ys).filter (fun z => key z = k) = [] := by
          rw [List.filter_eq_nil_iff]
          intro z hz
          rcases List.mem_cons.mp hz with h | h
          · subst h
            simp only [decide_eq_true_eq]
            omega
          · have := hy z h
            simp only [decide_eq_true_eq]
            omega
        rw [List.filter_cons, hnone]
        simp [hx]
      · rw [if_neg hc]
        rw [List.filter_cons, List.filter_cons, ih hys]
        by_cases hyk : key y = k <;> simp [hyk]

theorem sortDesc_filter (key : α → Nat) (l : List α) (k : Nat) :
    (sortDesc key l).filter (fun z => key z = k)
      = l.filter (fun z => key z = k) := by
  suffices h : ∀ acc, acc.Pairwise (fun a b => key b ≤ key a) →
      (l.foldl (fun acc x => insertDesc key x acc) acc).filter
          (fun z => key z = k)
        = acc.filter (fun z => key z = k) ++ l.filter (fun z => key z = k) by
    simpa [sortDesc] using h [] List.Pairwise.nil
  induction l with
  | nil =>
      intro acc hacc
      simp
  | cons x t ih =>
      intro acc hacc
      rw [List.foldl_cons, ih _ (insertDesc_pairwise hacc), List.filter_cons]
      by_cases hxk : key x = k
      · rw [filter_insertDesc_eq hacc hxk]
        simp [hxk]
      · rw [filter_insertDesc_ne hxk]
        simp [hxk]

/-- Decimal digit character (`n` is always below 10 at call sites). -/
def digitChar (n : Nat) : Char := Char.ofNat ('0'.toNat + min n 9)

/-- Value of a decimal digit character, `none` otherwise. -/
def charDigit (c : Char) : Option Nat :=
  if '0' ≤ c ∧ c ≤ '9' then some (c.toNat - '0'.toNat) else none

/-- Decimal rendering of a number (`BigNumber.toString` / `Number.toString`
for integers), via fuel-bounded repeated division — fuel `n` always
suffices. -/
def natToDigitsAux : Nat → Nat → List Char → List Char
  | 0, n, acc => digitChar (n % 10) :: acc
  | fuel + 1, n, acc =>
      if n < 10 then digitChar n :: acc
      else natToDigitsAux fuel (n / 10) (digitChar (n % 10) :: acc)

def natToDigits (n : Nat) : List Char := natToDigitsAux n n []

/-- Number of digits the rendering produces, same recursion.  -/
def numDigitsAux : Nat → Nat → Nat
  | 0, _ => 1
  | fuel + 1, n => if n < 10 then 1 else numDigitsAux fuel (n / 10) + 1

def numDigits (n : Nat) : Nat := numDigitsAux n n

/-- Parse a decimal digit string, extending accumulator `v`; `none` on a
non-digit. -/
def parseDec : List Char → Nat → Option Nat
  | [], v => some v
  | c :: cs, v =>
      match charDigit c with
      | some d => parseDec cs (v * 10 + d)
      | none => none

theorem charDigit_digitChar (n : Nat) (h : n < 10) :
    charDigit (digitChar n) = some n := by
  interval_cases n <;> decide

theorem parseDec_toDigitsAux :
    ∀ fuel n acc v, n ≤ fuel →
      parseDec (natToDigitsAux fuel n acc) v
        = parseDec acc (v * 10 ^ numDigitsAux fuel n + n) := by
  intro fuel
  induction fuel with
  | zero =>
      intro n acc v h
      have hn : n = 0 := by omega
      subst hn
      simp only [natToDigitsAux, numDigitsAux, parseDec,
        charDigit_digitChar 0 (by omega)]
      norm_num
  | succ fuel ih =>
      intro n acc v h
      by_cases hn : n < 10
      · simp only [natToDigitsAux, numDigitsAux, if_pos hn, parseDec,
          charDigit_digitChar n hn]
        norm_num
      · simp only [natToDigitsAux, numDigitsAux, if_neg hn]
        rw [ih (n / 10) _ v (by omega)]
        simp only [parseDec, charDigit_digitChar (n % 10) (by omega)]
        congr 1
        have hdm := Nat.div_add_mod n 10
        rw [pow_succ]
        ring_nf
        omega

theorem parseDec_natToDigits (n : Nat) : parseDec (natToDigits n) 0 = some n := by
  have h := parseDec_toDigitsAux n n [] 0 (Nat.le_refl n)
  simpa [natToDigits, parseDec] using h

theorem length_toDigitsAux :
    ∀ fuel n acc, (natToDigitsAux fuel n acc).length
      = numDigitsAux fuel n + acc.length := by
  intro fuel
  induction fuel with
  | zero =>
      intro n acc
      simp only [natToDigitsAux, numDigitsAux, List.length_cons]
      omega
  | succ fuel ih =>
      intro n acc
      by_cases hn : n < 10
      · simp only [natToDigitsAux, numDigitsAux, if_pos hn, List.length_cons]
        omega
      · simp only [natToDigitsAux, numDigitsAux, if_neg hn, ih, List.length_cons]
        omega

theorem numDigits_le :
    ∀ fuel n d, n ≤ fuel → 1 ≤ d → n < 10 ^ d → numDigitsAux fuel n ≤ d := by
  intro fuel
  induction fuel with
  | zero =>
      intro n d hf hd hn
      simp only [numDigitsAux]
      omega
  | succ fuel ih =>
      intro n d hf hd hn
      by_cases h10 : n < 10
      · simp only [numDigitsAux, if_pos h10]
        omega
      · simp only [numDigitsAux, if_neg h10]
        have hd2 : 2 ≤ d := by
          by_contra hc
          have hd1 : d = 1 := by omega
          subst hd1
          simp only [pow_one] at hn
          omega
        have hdiv : n / 10 < 10 ^ (d - 1) := by
          have h1 : 10 ^ d = 10 ^ (d - 1) * 10 := by
            rw [← pow_succ]
            congr 1
            omega
          rw [h1] at hn
          omega
        have := ih (n / 10) (d - 1) (by omega) (by omega) hdiv
        omega

theorem length_natToDigits_le (n d : Nat) (hd : 1 ≤ d) (hn : n < 10 ^ d) :
    (natToDigits n).length ≤ d := by
  rw [natToDigits, length_toDigitsAux]
  simp only [List.length_nil, Nat.add_zero]
  exact numDigits_le n n d (Nat.le_refl n) hd hn

theorem parseDec_append (l₁ l₂ : List Char) (v : Nat) :
    parseDec (l₁ ++ l₂) v
      = match parseDec l₁ v with
        | some w => parseDec l₂ w
        | none => none := by
  induction l₁ generalizing v with
  | nil => rfl
  | cons c cs ih =>
      simp only [List.cons_append, parseDec]
      cases charDigit c with
      | none => rfl
      | some d => exact ih _

theorem parseDec_replicate_zero (k v : Nat) :
    parseDec (List.replicate k '0') v = some (v * 10 ^ k) := by
  induction k generalizing v with
  | zero => simp [parseDec]
  | succ k ih =>
      have h0 : charDigit '0' = some 0 := rfl
      simp only [List.replicate_succ, parseDec, h0]
      rw [ih]
      congr 1
      ring

/-- Strip trailing `'0'`s, keeping `"0"` when nothing remains — the
`^([0-9]*[1-9]|0)(0*)$` fraction truncation of ethers v5 `formatFixed`. -/
def stripTrailingZeros (l : List Char) : List Char :=
  let r := (l.reverse.dropWhile (fun c => c = '0')).reverse
  if r.isEmpty then ['0'] else r

theorem stripTrailingZeros_exact (P : List Char) (m : Nat)
    (hP : parseDec P 0 = some m) :
    ∃ f z, parseDec (stripTrailingZeros P) 0 = some f ∧
      f * 10 ^ z = m ∧ z + (stripTrailingZeros P).length = max P.length 1 := by
  unfold stripTrailingZeros
  by_cases hre : ((P.reverse.dropWhile (fun c => c = '0')).reverse).isEmpty
  · rw [if_pos hre]
    have hnil : P.reverse.dropWhile (fun c => c = '0') = [] := by
      rw [List.isEmpty_iff, List.reverse_eq_nil_iff] at hre
      exact hre
    have hall : ∀ c ∈ P, c = '0' := by
      intro c hc
      have hc' : c ∈ P.reverse := List.mem_reverse.mpr hc
      have := List.dropWhile_eq_nil_iff.mp hnil c hc'
      simpa using this
    have hPrep : P = List.replicate P.length '0' :=
      List.eq_replicate_of_mem hall
    have hm : m = 0 := by
      rw [hPrep, parseDec_replicate_zero] at hP
      injection hP with hm'
      omega
    refine ⟨0, max P.length 1 - 1, rfl, by omega, ?_⟩
    simp only [List.length_singleton]
    omega
  · rw [if_neg hre]
    set r := (P.reverse.dropWhile (fun c => c = '0')).reverse with hrdef
    set k := (P.reverse.takeWhile (fun c => c = '0')).length with hkdef
    have hsplit : P = r ++ List.replicate k '0' := by
      have h1 : P.reverse.takeWhile (fun c => c = '0')
          ++ P.reverse.dropWhile (fun c => c = '0') = P.reverse :=
        List.takeWhile_append_dropWhile _ _
      have h2 : P = (P.reverse.dropWhile (fun c => c = '0')).reverse
          ++ (P.reverse.takeWhile (fun c => c = '0')).reverse := by
        rw [← List.reverse_append, h1, List.reverse_reverse]
      have hall : ∀ b ∈ (P.reverse.takeWhile (fun c => c = '0')).reverse,
          b = '0' := by
        intro b hb
        have hb' := List.mem_reverse.mp hb
        have := List.mem_takeWhile_imp hb'
        simpa using this
      have h3 : (P.reverse.takeWhile (fun c => c = '0')).reverse
          = List.replicate k '0' := by
        have h4 := List.eq_replicate_of_mem hall
        rw [h4, List.length_reverse]
      rw [h2, h3]
    rw [hsplit, parseDec_append] at hP
    cases hr : parseDec r 0 with
    | none =>
        rw [hr] at hP
        cases hP
    | some f =>
        rw [hr] at hP
        dsimp only at hP
        rw [parseDec_replicate_zero] at hP
        injection hP with hm
        have hrlen : 1 ≤ r.length := by
          rw [List.isEmpty_iff] at hre
          cases hcr : r with
          | nil => exact absurd hcr hre
          | cons c cs => simp [hcr]
        have hPlen : P.length = r.length + k := by
          rw [hsplit, List.length_append, List.length_replicate]
        exact ⟨f, k, rfl, hm, by omega⟩

/-- `ethers.utils.formatUnits(value, decimals)` (v5 `formatFixed`): whole
part `value / 10^decimals`, a dot, then `value % 10^decimals` left-padded
with zeros to `decimals` digits with trailing zeros trimmed (at least one
fraction digit kept). -/
def formatUnits (value decimals : Nat) : List Char :=
  natToDigits (value / 10 ^ decimals) ++ '.' ::
    stripTrailingZeros
      (List.replicate (decimals - (natToDigits (value % 10 ^ decimals)).length) '0'
        ++ natToDigits (value % 10 ^ decimals))

theorem formatUnits_exact (value decimals : Nat) :
    ∃ frac f z,
      formatUnits value decimals
        = natToDigits (value / 10 ^ decimals) ++ '.' :: frac ∧
      parseDec (natToDigits (value / 10 ^ decimals)) 0
        = some (value / 10 ^ decimals) ∧
      parseDec frac 0 = some f ∧
      f * 10 ^ z = value % 10 ^ decimals ∧
      z + frac.length = max decimals 1 := by
  have hparseP :
      parseDec
        (List.replicate (decimals - (natToDigits (value % 10 ^ decimals)).length) '0'
          ++ natToDigits (value % 10 ^ decimals)) 0
      = some (value % 10 ^ decimals) := by
    rw [parseDec_append, parseDec_replicate_zero]
    simp only [Nat.zero_mul]
    exact parseDec_natToDigits _
  have hlenP :
      (List.replicate (decimals - (natToDigits (value % 10 ^ decimals)).length) '0'
        ++ natToDigits (value % 10 ^ decimals)).length = max decimals 1 := by
    rw [List.length_append, List.length_replicate]
    by_cases hd : decimals = 0
    · subst hd
      norm_num [Nat.mod_one]
      rfl
    · have hdl : (natToDigits (value % 10 ^ decimals)).length ≤ decimals :=
        length_natToDigits_le _ _ (by omega)
          (Nat.mod_lt _ (Nat.pos_pow_of_pos _ (by omega)))
      omega
  obtain ⟨f, z, hf, hfz, hlen⟩ := stripTrailingZeros_exact _ _ hparseP
  rw [hlenP] at hlen
  refine ⟨_, f, z, rfl, parseDec_natToDigits _, hf, hfz, by omega⟩

/-- C8: `render` produces the rows sorted descending by the chosen numeric
key with ties kept in insertion (first-seen) order — the sorted list is a
permutation of the input, pairwise descending in the key, and its
subsequence of any fixed key value equals the input's — truncated to the
first `limit` rows; the arbitrary-precision amount renders as the exact
decimal integer string, and the scaled rendering is exact: `formatUnits`
splits into the whole-part digits, a dot and a fraction whose parsed value,
scaled by the trimmed power of ten, is exactly `value mod 10^decimals` — no
floating point is involved anywhere; in particular raw 1500000000000000000
at scale 18 renders as "1.5". -/
theorem C8_exporter_determinism {α : Type} (l : List α) (key : α → Nat)
    (limit : Nat) (value decimals : Nat) :
    render l key limit = (sortDesc key l).take limit ∧
    (sortDesc key l).Perm l ∧
    (sortDesc key l).Pairwise (fun a b => key b ≤ key a) ∧
    (∀ k, (sortDesc key l).filter (fun z => key z = k)
        = l.filter (fun z => key z = k)) ∧
    parseDec (natToDigits value) 0 = some value ∧
    (∃ frac f z,
      formatUnits value decimals
        = natToDigits (value / 10 ^ decimals) ++ '.' :: frac ∧
      parseDec (natToDigits (value / 10 ^ decimals)) 0
        = some (value / 10 ^ decimals) ∧
      parseDec frac 0 = some f ∧
      f * 10 ^ z = value % 10 ^ decimals ∧
      z + frac.length = max decimals 1) ∧
    formatUnits 1500000000000000000 18 = ['1', '.', '5'] :=
  ⟨rfl, sortDesc_perm key l, sortDesc_pairwise key l, sortDesc_filter key l,
   parseDec_natToDigits value, formatUnits_exact value decimals, by decide⟩
